import Mathlib

/-!
Shallow embedding of the `sportsstats` CSV query engine (`src/csv_parser.py`,
with the sort primitive called from `src/frontend.py`), together with proofs
about its tokenizer, type inference, ingestion, and query primitives.

Conventions of the embedding:
* a text source is modelled as the list of its lines, each line given with its
  trailing newline / carriage-return characters already removed (the code
  applies `rstrip` with those two characters to every line it reads);
* Python runtime values appearing in a dataset cell are modelled by `Value`;
  decimal/exponent float literals are modelled exactly as rationals;
* Python dicts (rows, indexes, group tables) are modelled as association
  lists in insertion order, which is how Python dicts iterate;
* fallible Python code (raising exceptions) is modelled with `Except`.
-/

deriving instance DecidableEq for Except

namespace SportsStats

/-- The double-quote character, written via its code point so that the file
contains no quote character literal. -/
def quoteChar : Char := Char.ofNat 34

/-- A cell value as produced by the parser: one of Python `int`, `float`,
`bool`, `str`, `None`. Floats are modelled as exact rationals. -/
inductive Value where
  | int (n : ℤ)
  | float (q : ℚ)
  | bool (b : Bool)
  | str (s : String)
  | null
deriving DecidableEq

/-- A schema type tag, as stored by `_infer_schema_all_rows`. -/
inductive Ty where
  | int
  | float
  | bool
  | string
deriving DecidableEq, Fintype

/-- The numeric content of a value, if any; Python treats `bool` as a numeric
(`True == 1`, `isinstance(True, int)` holds). -/
def numQ : Value → Option ℚ
  | .int n => some (n : ℚ)
  | .float q => some q
  | .bool b => some (if b then 1 else 0)
  | _ => none

/-- The integer content of a value for int-producing arithmetic (`int` and
`bool`, the latter counting as 1 or 0 as in Python). -/
def numZ : Value → Option ℤ
  | .int n => some n
  | .bool b => some (if b then 1 else 0)
  | _ => none

/-- Canonical key of a value under Python `==`: numeric values of equal
magnitude are equal across `int`/`float`/`bool`; strings compare as strings;
`None` equals only `None`; nothing is equal across those three categories. -/
def pyKey : Value → ℚ ⊕ String ⊕ Unit
  | .int n => .inl (n : ℚ)
  | .float q => .inl q
  | .bool b => .inl (if b then 1 else 0)
  | .str s => .inr (.inl s)
  | .null => .inr (.inr ())

/-- Python `==` on cell values (used for dict-key matching in `join` and in
grouped aggregation). -/
def pyEqB (a b : Value) : Bool := decide (pyKey a = pyKey b)

/-- Python `is None` (constructor identity, not `==`). -/
def isNone : Value → Bool
  | .null => true
  | _ => false

/-! ### Tokenizer: `CSVParser._parse_csv_line` -/

/-- The character scan of `_parse_csv_line`: walk the line left to right with
the accumulated fields, the current field and the `in_quotes` flag. A quote
toggles the flag unless it is immediately followed by another quote while
already inside quotes, in which case one literal quote is appended and both
characters are consumed; the delimiter ends the field only outside quotes;
every other character is appended to the current field; at end of line the
current field is emitted. -/
def parseLineAux (delim : Char) : List Char → List String → String → Bool → List String
  | [], fields, cur, _ => fields ++ [cur]
  | c :: rest, fields, cur, inQ =>
    if c = quoteChar then
      if inQ then
        match rest with
        | c2 :: rest2 =>
          if c2 = quoteChar then parseLineAux delim rest2 fields (cur.push quoteChar) true
          else parseLineAux delim (c2 :: rest2) fields cur false
        | [] => parseLineAux delim [] fields cur false
      else parseLineAux delim rest fields cur true
    else if c = delim ∧ inQ = false then parseLineAux delim rest (fields ++ [cur]) "" inQ
    else parseLineAux delim rest fields (cur.push c) inQ

/-- `CSVParser._parse_csv_line`: split one line into its field strings. -/
def parseCsvLine (delim : Char) (line : String) : List String :=
  parseLineAux delim line.data [] "" false

/-- The evolution of the `in_quotes` flag alone over a character list
(it does not depend on the delimiter or on the accumulated fields). -/
def quoteState : List Char → Bool → Bool
  | [], inQ => inQ
  | c :: rest, inQ =>
    if c = quoteChar then
      if inQ then
        match rest with
        | c2 :: rest2 =>
          if c2 = quoteChar then quoteState rest2 true
          else quoteState (c2 :: rest2) false
        | [] => quoteState [] false
      else quoteState rest true
    else quoteState rest inQ

/-! ### Value inference: `CSVParser._infer_value_type` -/

/-- ASCII whitespace as recognised by Python `str.strip()` (the unicode
whitespace range beyond ASCII is not modelled). -/
def isSpaceChar (c : Char) : Bool :=
  c = ' ' || c = '\t' || c = '\n' || c = '\r' || c = Char.ofNat 11 || c = Char.ofNat 12

/-- Python `s.strip()`: remove leading and trailing whitespace. -/
def pyStrip (s : String) : String :=
  String.mk (((s.data.dropWhile isSpaceChar).reverse.dropWhile isSpaceChar).reverse)

/-- Python `s.lower()` (ASCII letters). -/
def pyLower (s : String) : String :=
  String.mk (s.data.map (fun c => if 'A' ≤ c ∧ c ≤ 'Z' then Char.ofNat (c.toNat + 32) else c))

/-- Value of a digit string read in base 10. -/
def digitsVal (cs : List Char) : ℕ :=
  cs.foldl (fun n c => 10 * n + (c.toNat - 48)) 0

/-- Python `int(s)` on an already-stripped string: an optional sign followed
by a nonempty run of decimal digits. (PEP 515 digit-group underscores are not
modelled.) -/
def parseIntStr (s : String) : Option ℤ :=
  let signDigits : ℤ × List Char :=
    match s.data with
    | '+' :: rest => (1, rest)
    | '-' :: rest => (-1, rest)
    | cs => (1, cs)
  if signDigits.2 ≠ [] ∧ signDigits.2.all Char.isDigit then
    some (signDigits.1 * (digitsVal signDigits.2 : ℤ))
  else none

/-- Split a character list at the first exponent marker `e`/`E`. -/
def breakAtExpMark : List Char → List Char × Option (List Char)
  | [] => ([], none)
  | c :: rest =>
    if c = 'e' ∨ c = 'E' then ([], some rest)
    else
      let p := breakAtExpMark rest
      (c :: p.1, p.2)

/-- Split a character list at the first decimal point. -/
def breakAtDot : List Char → List Char × Option (List Char)
  | [] => ([], none)
  | c :: rest =>
    if c = '.' then ([], some rest)
    else
      let p := breakAtDot rest
      (c :: p.1, p.2)

/-- The unsigned mantissa of a Python float literal: digits with an optional
decimal point, at least one digit present. -/
def parseMantissa (cs : List Char) : Option ℚ :=
  let p := breakAtDot cs
  match p.2 with
  | none =>
    if p.1 ≠ [] ∧ p.1.all Char.isDigit then some ((digitsVal p.1 : ℚ)) else none
  | some frac =>
    if (p.1.all Char.isDigit ∧ frac.all Char.isDigit) ∧ ¬(p.1 = [] ∧ frac = []) then
      some ((digitsVal p.1 : ℚ) + (digitsVal frac : ℚ) / ((10 : ℚ) ^ frac.length))
    else none

/-- The exponent part of a Python float literal: optional sign, nonempty digits. -/
def parseExpPart (cs : List Char) : Option ℤ :=
  let signDigits : ℤ × List Char :=
    match cs with
    | '+' :: rest => (1, rest)
    | '-' :: rest => (-1, rest)
    | cs' => (1, cs')
  if signDigits.2 ≠ [] ∧ signDigits.2.all Char.isDigit then
    some (signDigits.1 * (digitsVal signDigits.2 : ℤ))
  else none

/-- Python `float(s)` on an already-stripped string, for decimal and exponent
literals (the named literals `inf`/`nan` are outside the embedding; an all-digit
string never reaches this parse because `int` is attempted first). -/
def parseFloatStr (s : String) : Option ℚ :=
  let signRest : ℚ × List Char :=
    match s.data with
    | '+' :: rest => (1, rest)
    | '-' :: rest => (-1, rest)
    | cs => (1, cs)
  let p := breakAtExpMark signRest.2
  match parseMantissa p.1 with
  | none => none
  | some m =>
    match p.2 with
    | none => some (signRest.1 * m)
    | some expChars =>
      match parseExpPart expChars with
      | none => none
      | some k => some (signRest.1 * m * (10 : ℚ) ^ k)

/-- `CSVParser._infer_value_type`: blank/whitespace becomes null; otherwise
try `int`, then `float`, then case-insensitive `true`/`false`, else the
trimmed string itself. -/
def inferValueType (s : String) : Value :=
  if pyStrip s = "" then .null
  else
    let v := pyStrip s
    match parseIntStr v with
    | some n => .int n
    | none =>
      match parseFloatStr v with
      | some q => .float q
      | none =>
        if pyLower v = "true" then .bool true
        else if pyLower v = "false" then .bool false
        else .str v

/-! ### Rows as insertion-ordered dicts -/

/-- A row: a Python dict from column name to value, modelled as an
association list in insertion order. -/
abbrev Row := List (String × Value)

/-- Python `row[k]`-style lookup returning an option: the value of the first
entry with the given key. -/
def dictLookup (r : Row) (k : String) : Option Value :=
  (r.find? (fun p => p.1 == k)).map (fun p => p.2)

/-- Python `d[k] = v`: replace the value at an existing key in place,
otherwise append the new entry at the end. -/
def dictInsert (r : Row) (k : String) (v : Value) : Row :=
  match r with
  | [] => [(k, v)]
  | (k', v') :: rest =>
    if k' == k then (k', v) :: rest else (k', v') :: dictInsert rest k v

/-- Python `d.update(other)`: insert `other`'s entries into `r` in order,
right values winning on a key collision. -/
def dictUpdate (r other : Row) : Row :=
  other.foldl (fun acc p => dictInsert acc p.1 p.2) r

/-- The key list of a row in insertion order. -/
def rowKeys (r : Row) : List String := r.map (fun p => p.1)

/-! ### Schema inference: `CSVParser._infer_schema_all_rows` -/

/-- The type tag `_infer_schema_all_rows` computes for one runtime value via
`isinstance` checks. Python `bool` is a subclass of `int`, so the
`isinstance(val, int)` branch captures booleans and the later `bool` branch
is dead; `None` falls through to the final `string` branch. -/
def typeTag : Value → Ty
  | .int _ => .int
  | .bool _ => .int
  | .float _ => .float
  | .str _ => .string
  | .null => .string

/-- One promotion step of the tracked column type: seed with the first
observed tag, keep an equal tag, collapse differing tags to `string`. -/
def promoteStep : Option Ty → Ty → Ty
  | none, t => t
  | some s, t => if s = t then s else .string

/-- `col_types[col] = ...` on the tracked association list: update the first
entry with the given key with one promotion step; a missing key is a no-op
here (the Python dict write would raise `KeyError`, which cannot happen for
rows sharing the first row's key set, the only rows this function is run on). -/
def updatePromote (ct : List (String × Option Ty)) (col : String) (t : Ty) :
    List (String × Option Ty) :=
  match ct with
  | [] => []
  | (c, o) :: rest =>
    if c == col then (c, some (promoteStep o t)) :: rest
    else (c, o) :: updatePromote rest col t

/-- The inner loop of `_infer_schema_all_rows`: fold one row's items into the
tracked column types. -/
def processRowTypes (ct : List (String × Option Ty)) (r : Row) :
    List (String × Option Ty) :=
  r.foldl (fun ct p => updatePromote ct p.1 (typeTag p.2)) ct

/-- `CSVParser._infer_schema_all_rows`: seed `col_types` from the first row's
keys with no tracked type, fold every row's items through promotion, and read
off the schema. Every first-row column receives that first row's own tag
during the fold, so the `string` default of the final read-off is never used. -/
def inferSchemaAllRows (data : List Row) : List (String × Ty) :=
  match data with
  | [] => []
  | r0 :: _ =>
    let ct0 : List (String × Option Ty) := r0.map (fun p => (p.1, none))
    (data.foldl processRowTypes ct0).map (fun p => (p.1, p.2.getD .string))

/-! ### Ingestion: `CSVParser._read_csv_file` and `CSVParser.parse` -/

/-- `CSVParser._read_csv_file`: the first line tokenized as the header, every
remaining non-blank line tokenized as a raw row. -/
def readCsvFile (delim : Char) (lines : List String) : List String × List (List String) :=
  match lines with
  | [] => ([], [])
  | l0 :: rest =>
    (parseCsvLine delim l0, (rest.filter (fun l => l != "")).map (parseCsvLine delim))

/-- Pad a short raw row with trailing empty fields to the header width, or
truncate a long one to it. -/
def adjustRowWidth (h : ℕ) (row : List String) : List String :=
  if row.length ≠ h then
    if row.length < h then row ++ List.replicate (h - row.length) "" else row.take h
  else row

/-- Build `parsed_row` from header names and width-adjusted fields: successive
dict insertion of each `(column, value)` pair, the value put through
`_infer_value_type` when inference is on and stored stripped otherwise. -/
def buildRowFromFields (typeInf : Bool) (header fields : List String) : Row :=
  (header.zip fields).foldl
    (fun acc p =>
      dictInsert acc p.1 (if typeInf then inferValueType p.2 else .str (pyStrip p.2)))
    []

/-- The row sequence a fresh full-mode parse derives from a source. -/
def fullIngestRows (delim : Char) (typeInf : Bool) (lines : List String) : List Row :=
  let hr := readCsvFile delim lines
  hr.2.map (fun row => buildRowFromFields typeInf hr.1 (adjustRowWidth hr.1.length row))

/-- The mutable state of a `CSVParser`: its accumulated `data` rows and its
`schema`. -/
structure PState where
  data : List Row
  schema : List (String × Ty)
deriving DecidableEq

/-- The state `__init__` leaves behind: no rows, empty schema. -/
def initPState : PState := ⟨[], []⟩

/-- Ingestion error kinds named by the specification. The embedded code never
produces `emptyInput`; the constructor exists so that the specified behaviour
is statable. -/
inductive IngestError where
  | emptyInput
  | sourceNotFound
deriving DecidableEq

/-- `CSVParser.parse` in full mode (`chunk_size=None`): append every parsed
row to the existing `self.data`, re-infer the schema over all accumulated
rows when any are present, and return `self.data`. -/
def parseFull (delim : Char) (typeInf : Bool) (st : PState) (lines : List String) :
    Except IngestError (PState × List Row) :=
  let newData := st.data ++ fullIngestRows delim typeInf lines
  let newSchema := if newData.isEmpty then st.schema else inferSchemaAllRows newData
  .ok (⟨newData, newSchema⟩, newData)

/-- The per-line row construction shared by both ingestion modes (`row = ...;
parsed_row = ...` in the source): tokenize, adjust to the header width, build
the typed row. -/
def rowOfLine (delim : Char) (typeInf : Bool) (header : List String) (line : String) : Row :=
  buildRowFromFields typeInf header (adjustRowWidth header.length (parseCsvLine delim line))

/-- The loop of the chunked-mode generator: walk the remaining lines keeping
the pending chunk and the running row count, yield the chunk whenever the
count reaches a multiple of the batch size, and yield a nonempty remainder at
end of input. -/
def chunkedGo (delim : Char) (typeInf : Bool) (K : ℕ) (header : List String) :
    List String → List Row → ℕ → List (List Row)
  | [], chunk, _ => if chunk.isEmpty then [] else [chunk]
  | line :: rest, chunk, cnt =>
    if line == "" then chunkedGo delim typeInf K header rest chunk cnt
    else
      if (cnt + 1) % K = 0 then
        (chunk ++ [rowOfLine delim typeInf header line]) :: chunkedGo delim typeInf K header rest [] (cnt + 1)
      else chunkedGo delim typeInf K header rest (chunk ++ [rowOfLine delim typeInf header line]) (cnt + 1)

/-- `CSVParser.parse` in chunked mode: the header is the first line read by
`readline()` (the empty string on an empty source), and the generator walks
the remaining lines. The resulting batch list is the generator's yields in
order; `self.data` and `self.schema` are untouched. -/
def parseChunked (delim : Char) (typeInf : Bool) (lines : List String) (K : ℕ) :
    List (List Row) :=
  chunkedGo delim typeInf K (parseCsvLine delim (lines.headD "")) lines.tail [] 0

/-! ### Query primitives -/

/-- Python exception kinds raised by the query primitives. -/
inductive PyErr where
  | valueError (msg : String)
  | keyError (k : String)
  | zeroDivision
  | typeError
deriving DecidableEq

/-- Python `row[k]`: the value at the key, or a `KeyError`. -/
def rowGet (r : Row) (k : String) : Except PyErr Value :=
  match dictLookup r k with
  | some v => .ok v
  | none => .error (.keyError k)

/-- Whether the schema has a column of the given name (`col in self.schema`). -/
def schemaHasCol (schema : List (String × Ty)) (col : String) : Bool :=
  schema.any (fun p => p.1 == col)

/-- `CSVParser.filter_rows`: the rows satisfying the predicate, in order; the
parser state is returned unchanged alongside the fresh list. -/
def filter_rows (st : PState) (cond : Row → Bool) : List Row × PState :=
  (st.data.filter cond, st)

/-- `CSVParser.filter_columns`: fail when any requested column is missing from
the schema, else build for every row a fresh dict restricted to the requested
columns in requested order. -/
def filter_columns (st : PState) (cols : List String) : Except PyErr (List Row) × PState :=
  let missing := cols.filter (fun c => !(schemaHasCol st.schema c))
  if missing.isEmpty then
    (st.data.mapM
      (fun row => cols.foldlM (fun acc c => (rowGet row c).map (dictInsert acc c)) []), st)
  else (.error (.valueError "Columns not found"), st)

/-- Python `a + b` as used by `sum`: int-like pairs give an int, any float
makes a float, anything non-numeric is a `TypeError` (Python's `sum` refuses
strings). -/
def pyAdd (a b : Value) : Except PyErr Value :=
  match numZ a, numZ b with
  | some m, some n => .ok (.int (m + n))
  | _, _ =>
    match numQ a, numQ b with
    | some x, some y => .ok (.float (x + y))
    | _, _ => .error .typeError

/-- Python `sum(vals)`: left fold of addition starting from the int `0`. -/
def pySum (vals : List Value) : Except PyErr Value :=
  vals.foldlM pyAdd (.int 0)

/-- Python `a < b` on cell values: numeric against numeric by magnitude,
string against string lexicographically, every other pairing a `TypeError`
(including any comparison involving `None`). -/
def pyLt (a b : Value) : Except PyErr Bool :=
  match numQ a, numQ b with
  | some x, some y => .ok (decide (x < y))
  | _, _ =>
    match a, b with
    | .str s, .str t => .ok (decide (s < t))
    | _, _ => .error .typeError

/-- Python `max(vals)`: error on the empty list, else keep the current
maximum, replacing it only on strict increase (first maximal value wins). -/
def pyMax (vals : List Value) : Except PyErr Value :=
  match vals with
  | [] => .error (.valueError "max of empty sequence")
  | v :: rest => rest.foldlM (fun m w => (pyLt m w).map (fun b => if b then w else m)) v

/-- Python `min(vals)`: error on the empty list, else keep the current
minimum, replacing it only on strict decrease. -/
def pyMin (vals : List Value) : Except PyErr Value :=
  match vals with
  | [] => .error (.valueError "min of empty sequence")
  | v :: rest => rest.foldlM (fun m w => (pyLt w m).map (fun b => if b then w else m)) v

/-- Python `sum(vals) / len(vals)` with `s` the already-computed sum: a zero
length is a `ZeroDivisionError`, otherwise true division yields a float. -/
def pyDivLen (s : Value) (n : ℕ) : Except PyErr Value :=
  if n = 0 then .error .zeroDivision
  else
    match numQ s with
    | some x => .ok (.float (x / (n : ℚ)))
    | none => .error .typeError

/-- The reduction step shared by both aggregation modes: dispatch on the
function name, unknown names raising `ValueError`. -/
def applyAggFunc (func : String) (vals : List Value) : Except PyErr Value :=
  if func == "sum" then pySum vals
  else if func == "max" then pyMax vals
  else if func == "min" then pyMin vals
  else if func == "avg" then do
    let s ← pySum vals
    pyDivLen s vals.length
  else if func == "count" then .ok (.int (vals.length : ℤ))
  else .error (.valueError ("Unsupported function: " ++ func))

/-- `if g not in result: result[g] = []` — group keys match under Python `==`. -/
def ensureGroup (gs : List (Value × List Value)) (k : Value) : List (Value × List Value) :=
  if gs.any (fun p => pyEqB p.1 k) then gs else gs ++ [(k, [])]

/-- `result[g].append(v)`: append to the first group whose key equals `k`
under Python `==`. -/
def appendGroup (gs : List (Value × List Value)) (k : Value) (v : Value) :
    List (Value × List Value) :=
  match gs with
  | [] => []
  | (k', vs) :: rest =>
    if pyEqB k' k then (k', vs ++ [v]) :: rest else (k', vs) :: appendGroup rest k v

/-- The result of `CSVParser.aggregate`: a scalar, or a group-key-to-scalar
table in first-seen group order. -/
inductive AggResult where
  | scalar (v : Value)
  | grouped (gs : List (Value × Value))
deriving DecidableEq

/-- The computation performed by `CSVParser.aggregate` (`group_by = none`
models a falsy `group_by`; a `None` `target_col` is not modelled, callers in
the repository always pass a string). -/
def aggregateE (st : PState) (group_by : Option String) (target_col : String)
    (func : String) : Except PyErr AggResult :=
  if ¬ schemaHasCol st.schema target_col then
    .error (.valueError ("Column " ++ target_col ++ " not found"))
  else
    match group_by with
    | some gcol =>
      if ¬ schemaHasCol st.schema gcol then
        .error (.valueError ("Group by column " ++ gcol ++ " not found"))
      else do
        let gs ← st.data.foldlM
          (fun gs row => do
            let g ← rowGet row gcol
            let v ← rowGet row target_col
            let gs := ensureGroup gs g
            pure (if isNone v then gs else appendGroup gs g v))
          ([] : List (Value × List Value))
        let reduced ← gs.mapM (fun p => (applyAggFunc func p.2).map (fun r => (p.1, r)))
        pure (.grouped reduced)
    | none => do
      let allVals ← st.data.mapM (fun row => rowGet row target_col)
      let vals := allVals.filter (fun v => !(isNone v))
      (applyAggFunc func vals).map .scalar

/-- `CSVParser.aggregate` with the parser state threaded explicitly; the
method never assigns to `self`, so the state comes back unchanged. -/
def aggregate (st : PState) (group_by : Option String) (target_col : String)
    (func : String) : Except PyErr AggResult × PState :=
  (aggregateE st group_by target_col func, st)

/-! ### `CSVParser.join` -/

/-- `index.setdefault(key, []).append(row)`: extend the first index entry
whose key equals `k` under Python `==`, or create one. -/
def setdefaultAppend (idx : List (Value × List Row)) (k : Value) (row : Row) :
    List (Value × List Row) :=
  match idx with
  | [] => [(k, [row])]
  | (k', rs) :: rest =>
    if pyEqB k' k then (k', rs ++ [row]) :: rest
    else (k', rs) :: setdefaultAppend rest k row

/-- The right-side hash index: rows lacking the right key are skipped, the
rest are grouped under their key value in encounter order. -/
def buildIndex (other : List Row) (right_on : String) : List (Value × List Row) :=
  other.foldl
    (fun idx row =>
      match dictLookup row right_on with
      | none => idx
      | some k => setdefaultAppend idx k row)
    []

/-- `key in index` / `index[key]` combined: the row list stored under the
first key equal to `k` under Python `==`, if any. -/
def idxFind (idx : List (Value × List Row)) (k : Value) : Option (List Row) :=
  (idx.find? (fun p => pyEqB p.1 k)).map (fun p => p.2)

/-- The pure computation of `CSVParser.join`: empty on an empty side, else
probe the right-side index with each left row's key and emit
`row.copy(); merged.update(match)` per match, in left order. -/
def joinData (selfData other : List Row) (left_on right_on : String) : List Row :=
  if other.isEmpty || selfData.isEmpty then []
  else
    let idx := buildIndex other right_on
    selfData.foldl
      (fun acc row =>
        match dictLookup row left_on with
        | none => acc
        | some k =>
          match idxFind idx k with
          | none => acc
          | some ms => acc ++ ms.map (fun m => dictUpdate row m))
      []

/-- `CSVParser.join` with the parser state threaded explicitly. -/
def join (st : PState) (other : List Row) (left_on right_on : String) :
    List Row × PState :=
  (joinData st.data other left_on right_on, st)

/-! ### Sort (modelled from the spec) -/

/-- The sort key of a cell value: null ranks below every other value, numeric
values (including booleans, as Python numbers) rank next and compare by
magnitude, strings rank last and compare lexicographically. The spec fixes
null as the minimum and natural ordering within a type; ordering across
non-null types is not specified and is modelled by this type rank. -/
def vkeyOf : Value → ℕ × ℚ × String
  | .null => (0, 0, "")
  | .int n => (1, (n : ℚ), "")
  | .float q => (1, q, "")
  | .bool b => (1, if b then 1 else 0, "")
  | .str s => (2, 0, s)

/-- Lexicographic less-or-equal on character lists. -/
def charListLe : List Char → List Char → Bool
  | [], _ => true
  | _ :: _, [] => false
  | a :: as, b :: bs =>
    if a < b then true else if b < a then false else charListLe as bs

/-- Lexicographic less-or-equal on strings. -/
def strLeB (s t : String) : Bool := charListLe s.data t.data

/-- Lexicographic comparison of sort-key triples. -/
def lexLeB (x y : ℕ × ℚ × String) : Bool :=
  decide (x.1 < y.1) ||
    (decide (x.1 = y.1) &&
      (decide (x.2.1 < y.2.1) || (decide (x.2.1 = y.2.1) && strLeB x.2.2 y.2.2)))

/-- The value a row sorts by in the given column (dataset rows always carry
every schema column; an absent key is treated as null). -/
def rowSortVal (col : String) (r : Row) : Value :=
  (dictLookup r col).getD .null

/-- Row comparison for `sort_data`: ascending by sort key, or the reverse of
that for a descending sort (a stable reversed comparison, which keeps null —
the minimum — last, as the spec requires for descending order). -/
def sortLe (reverse : Bool) (col : String) (a b : Row) : Bool :=
  if reverse then lexLeB (vkeyOf (rowSortVal col b)) (vkeyOf (rowSortVal col a))
  else lexLeB (vkeyOf (rowSortVal col a)) (vkeyOf (rowSortVal col b))

/-- The error raised by the sort primitive on an absent column. -/
inductive SortError where
  | columnNotFound (c : String)
deriving DecidableEq

/-- Modelled from the spec: the Sort query primitive (`sort_data`, called on
the engine by the request layer in `frontend.py` but not defined in any file
under `src/`). Per the spec it fails with `ColumnNotFound` when the column is
absent from the schema, and otherwise returns a new, stably sorted row
sequence ordered by the column's value, null ordering as the minimum
regardless of direction. -/
def sort_data (st : PState) (col : String) (reverse : Bool) : Except SortError (List Row) :=
  if schemaHasCol st.schema col then
    .ok (List.insertionSort (fun a b => sortLe reverse col a b = true) st.data)
  else .error (.columnNotFound col)

/-- The three-row end-to-end input of §8 of the specification. -/
def sec8Lines : List String := ["Player,Tm,PTS", "A,LAL,30", "B,GSW,25", "C,LAL,"]

/-- The rows derived from the data lines after the header: skip blank lines,
tokenize, adjust to the header width, build the typed row. Both ingestion
modes produce exactly this sequence. -/
def chunkRowsOf (delim : Char) (typeInf : Bool) (header : List String)
    (rest : List String) : List Row :=
  (rest.filter (fun l => l != "")).map (rowOfLine delim typeInf header)

/-- The promotion history of one tracked column cell across a row sequence:
rows carrying the column contribute one promotion step, rows without it leave
the cell alone. `_infer_schema_all_rows` computes exactly this per column. -/
def cellFold (data : List Row) (c : String) (o : Option Ty) : Option Ty :=
  data.foldl
    (fun o r =>
      match dictLookup r c with
      | some v => some (promoteStep o (typeTag v))
      | none => o)
    o

/-! ## Theorems -/

/-- C1. The claim says schema inference is seeded by the first non-null
value's runtime type, that null values never affect promotion, and that the
§8 input infers `PTS : int`. The code disagrees: `_infer_schema_all_rows`
sends `None` through its final `else` branch, tagging it `string`, so the
blank `PTS` value in row C collapses the `PTS` column to `string`. This
theorem evaluates the embedded pipeline on the §8 input: the inferred schema
tags all three columns `string`, `PTS` included. -/
theorem c1_sec8_schema_all_string :
    (parseFull ',' true initPState sec8Lines).map (fun p => p.1.schema)
      = .ok [("Player", Ty.string), ("Tm", Ty.string), ("PTS", Ty.string)]
    ∧ (parseFull ',' true initPState sec8Lines).map (fun p => p.1.data)
      = .ok [[("Player", .str "A"), ("Tm", .str "LAL"), ("PTS", .int 30)],
             [("Player", .str "B"), ("Tm", .str "GSW"), ("PTS", .int 25)],
             [("Player", .str "C"), ("Tm", .str "LAL"), ("PTS", .null)]] := by
  decide

/-- C2. The claim says `avg` over a scope with zero non-null target values
returns null and never divides by zero. The code computes
`sum(vals) / len(vals)` unguarded, so both the global scope and a group with
no non-null values raise `ZeroDivisionError`. This theorem evaluates the
embedded `aggregate` on both failing scopes. -/
theorem c2_avg_zero_nonnull_raises :
    aggregateE ⟨[[("PTS", .null)]], [("PTS", .string)]⟩ none "PTS" "avg"
      = .error .zeroDivision
    ∧ aggregateE ⟨[[("Tm", .str "LAL"), ("PTS", .null)]],
                  [("Tm", .string), ("PTS", .string)]⟩ (some "Tm") "PTS" "avg"
      = .error .zeroDivision := by
  decide

/-- C6 counterexample. The claim says full-mode parse of a source with no
header line raises `EmptyInput`; evaluated on the empty source, parse instead
returns successfully with an empty dataset. -/
theorem c6_empty_source_returns_ok :
    parseFull ',' true initPState [] ≠ Except.error IngestError.emptyInput
    ∧ parseFull ',' true initPState [] = .ok (initPState, []) := by
  decide

/-- C6 (amended). Full-mode parse of a source producing no lines at all never
fails: it returns the previously accumulated rows unchanged (an empty dataset
for a fresh parser), re-inferring the schema only when rows are present. -/
theorem c6_empty_source_full_parse (delim : Char) (ti : Bool) (st : PState) :
    parseFull delim ti st []
      = .ok (⟨st.data, if st.data.isEmpty then st.schema else inferSchemaAllRows st.data⟩,
             st.data) := by
  simp [parseFull, fullIngestRows, readCsvFile]

/-- C9. No query primitive mutates the parser state: `filter_rows`,
`filter_columns`, `aggregate` and `join`, on any arguments (including ones
that produce an error), return the dataset rows and schema unchanged. -/
theorem c9_primitives_preserve_state (st : PState) (cond : Row → Bool)
    (cols : List String) (gb : Option String) (target func : String)
    (other : List Row) (lk rk : String) :
    (filter_rows st cond).2 = st ∧ (filter_columns st cols).2 = st
    ∧ (aggregate st gb target func).2 = st ∧ (join st other lk rk).2 = st := by
  refine ⟨rfl, ?_, rfl, rfl⟩
  unfold filter_columns
  dsimp only
  split <;> rfl

/-- C10. Full-mode parse accumulates: parsing the same source twice from a
fresh parser leaves the source's row sequence duplicated in order (2N rows
for an N-row source), with the schema re-inferred over all accumulated rows. -/
theorem c10_second_parse_duplicates (delim : Char) (ti : Bool) (lines : List String) :
    (do
      let r1 ← parseFull delim ti initPState lines
      parseFull delim ti r1.1 lines)
      = Except.ok
          (⟨fullIngestRows delim ti lines ++ fullIngestRows delim ti lines,
            if (fullIngestRows delim ti lines ++ fullIngestRows delim ti lines).isEmpty
            then [] else
              inferSchemaAllRows
                (fullIngestRows delim ti lines ++ fullIngestRows delim ti lines)⟩,
           fullIngestRows delim ti lines ++ fullIngestRows delim ti lines)
    ∧ (fullIngestRows delim ti lines ++ fullIngestRows delim ti lines).length
        = 2 * (fullIngestRows delim ti lines).length := by
  constructor
  · simp only [parseFull, initPState, Except.bind, bind]
    by_cases h : (fullIngestRows delim ti lines).isEmpty <;>
      simp_all [List.isEmpty_iff]
  · simp [two_mul]

/-- Unfolding: the empty line emits the accumulated fields plus the current
field. -/
theorem parseLineAux_nil (delim : Char) (fields : List String) (cur : String)
    (inQ : Bool) : parseLineAux delim [] fields cur inQ = fields ++ [cur] := by
  rw [parseLineAux.eq_def]

/-- Unfolding: a quote outside quotes toggles the flag on. -/
theorem parseLineAux_quote_off (delim : Char) (rest : List Char)
    (fields : List String) (cur : String) :
    parseLineAux delim (quoteChar :: rest) fields cur false
      = parseLineAux delim rest fields cur true := by
  rw [parseLineAux.eq_def]; simp

/-- Unfolding: a final quote inside quotes toggles the flag off. -/
theorem parseLineAux_quote_on_nil (delim : Char) (fields : List String)
    (cur : String) :
    parseLineAux delim [quoteChar] fields cur true
      = parseLineAux delim [] fields cur false := by
  rw [parseLineAux.eq_def]; simp

/-- Unfolding: a doubled quote inside quotes appends one literal quote and
consumes both characters. -/
theorem parseLineAux_quote_on_quote (delim : Char) (rest2 : List Char)
    (fields : List String) (cur : String) :
    parseLineAux delim (quoteChar :: quoteChar :: rest2) fields cur true
      = parseLineAux delim rest2 fields (cur.push quoteChar) true := by
  rw [parseLineAux.eq_def]; simp

/-- Unfolding: a quote inside quotes not followed by another quote toggles
the flag off. -/
theorem parseLineAux_quote_on_other (delim : Char) {c2 : Char}
    (hq2 : c2 ≠ quoteChar) (rest2 : List Char) (fields : List String)
    (cur : String) :
    parseLineAux delim (quoteChar :: c2 :: rest2) fields cur true
      = parseLineAux delim (c2 :: rest2) fields cur false := by
  rw [parseLineAux.eq_def]; simp [hq2]

/-- Unfolding: the delimiter outside quotes closes the current field. -/
theorem parseLineAux_delim (delim : Char) (hd : delim ≠ quoteChar)
    (rest : List Char) (fields : List String) (cur : String) :
    parseLineAux delim (delim :: rest) fields cur false
      = parseLineAux delim rest (fields ++ [cur]) "" false := by
  rw [parseLineAux.eq_def]; simp [hd]

/-- Unfolding: every other character is appended to the current field. -/
theorem parseLineAux_other (delim : Char) {c : Char} {inQ : Bool}
    (hq : c ≠ quoteChar) (hno : ¬(c = delim ∧ inQ = false)) (rest : List Char)
    (fields : List String) (cur : String) :
    parseLineAux delim (c :: rest) fields cur inQ
      = parseLineAux delim rest fields (cur.push c) inQ := by
  rw [parseLineAux.eq_def]; simp [hq, hno]

/-- The scan state ignores characters other than the quote. -/
theorem quoteState_cons_other {c : Char} (hc : c ≠ quoteChar) (rest : List Char)
    (inQ : Bool) : quoteState (c :: rest) inQ = quoteState rest inQ := by
  rw [quoteState.eq_def]; simp [hc]

/-- The scan state after a quote seen outside quotes. -/
theorem quoteState_quote_off (rest : List Char) :
    quoteState (quoteChar :: rest) false = quoteState rest true := by
  rw [quoteState.eq_def]; simp

/-- The scan state after a doubled quote seen inside quotes. -/
theorem quoteState_quote_on_quote (rest2 : List Char) :
    quoteState (quoteChar :: quoteChar :: rest2) true = quoteState rest2 true := by
  rw [quoteState.eq_def]; simp

/-- The scan state after a closing quote followed by a non-quote. -/
theorem quoteState_quote_on_other {c2 : Char} (hq2 : c2 ≠ quoteChar)
    (rest2 : List Char) :
    quoteState (quoteChar :: c2 :: rest2) true = quoteState (c2 :: rest2) false := by
  rw [quoteState.eq_def]; simp [hq2]

/-- Processing a line followed by one trailing delimiter, when the scan ends
outside quotes, emits exactly one extra empty field. -/
theorem parseLineAux_append_delim (delim : Char) (hd : delim ≠ quoteChar) :
    ∀ (cs : List Char) (fields : List String) (cur : String) (inQ : Bool),
      quoteState cs inQ = false →
      parseLineAux delim (cs ++ [delim]) fields cur inQ
        = parseLineAux delim cs fields cur inQ ++ [""]
  | [], fields, cur, inQ, h => by
    have hi : inQ = false := by simpa [quoteState] using h
    subst hi
    rw [List.nil_append, parseLineAux_delim delim hd, parseLineAux_nil,
      parseLineAux_nil]
  | c :: rest, fields, cur, inQ, h => by
    by_cases hq : c = quoteChar
    · subst hq
      cases inQ with
      | false =>
        rw [quoteState_quote_off] at h
        rw [List.cons_append, parseLineAux_quote_off, parseLineAux_quote_off,
          parseLineAux_append_delim delim hd rest fields cur true h]
      | true =>
        cases rest with
        | nil =>
          rw [List.cons_append, List.nil_append,
            parseLineAux_quote_on_other delim hd, parseLineAux_delim delim hd,
            parseLineAux_nil, parseLineAux_quote_on_nil, parseLineAux_nil]
        | cons c2 rest2 =>
          by_cases hq2 : c2 = quoteChar
          · subst hq2
            rw [quoteState_quote_on_quote] at h
            rw [List.cons_append, List.cons_append, parseLineAux_quote_on_quote,
              parseLineAux_quote_on_quote,
              parseLineAux_append_delim delim hd rest2 fields (cur.push quoteChar) true h]
          · rw [quoteState_quote_on_other hq2] at h
            rw [List.cons_append, List.cons_append, parseLineAux_quote_on_other delim hq2,
              parseLineAux_quote_on_other delim hq2, ← List.cons_append,
              parseLineAux_append_delim delim hd (c2 :: rest2) fields cur false h]
    · rw [quoteState_cons_other hq] at h
      by_cases hdel : c = delim ∧ inQ = false
      · rcases hdel with ⟨hc, hi⟩
        subst hi
        rw [List.cons_append, hc, parseLineAux_delim delim hd, parseLineAux_delim delim hd,
          parseLineAux_append_delim delim hd rest (fields ++ [cur]) "" false h]
      · rw [List.cons_append, parseLineAux_other delim hq hdel,
          parseLineAux_other delim hq hdel,
          parseLineAux_append_delim delim hd rest fields (cur.push c) inQ h]

/-- The tokenizer always emits at least the current field. -/
theorem parseLineAux_length (delim : Char) :
    ∀ (cs : List Char) (fields : List String) (cur : String) (inQ : Bool),
      fields.length + 1 ≤ (parseLineAux delim cs fields cur inQ).length
  | [], fields, cur, inQ => by simp [parseLineAux_nil]
  | c :: rest, fields, cur, inQ => by
    by_cases hq : c = quoteChar
    · subst hq
      cases inQ with
      | false =>
        rw [parseLineAux_quote_off]
        exact parseLineAux_length delim rest fields cur true
      | true =>
        cases rest with
        | nil =>
          rw [parseLineAux_quote_on_nil, parseLineAux_nil]
          simp
        | cons c2 rest2 =>
          by_cases hq2 : c2 = quoteChar
          · subst hq2
            rw [parseLineAux_quote_on_quote]
            exact parseLineAux_length delim rest2 fields (cur.push quoteChar) true
          · rw [parseLineAux_quote_on_other delim hq2]
            exact parseLineAux_length delim (c2 :: rest2) fields cur false
    · by_cases hdel : c = delim ∧ inQ = false
      · rcases hdel with ⟨hc, hi⟩
        subst hi
        rw [hc, parseLineAux_delim delim (hc ▸ hq)]
        have := parseLineAux_length delim rest (fields ++ [cur]) "" false
        simp only [List.length_append, List.length_cons, List.length_nil] at this
        omega
      · rw [parseLineAux_other delim hq hdel]
        exact parseLineAux_length delim rest fields (cur.push c) inQ

/-- C7. The tokenizer scan: with the quote-doubling rule embedded in
`parseLineAux`, (i) a trailing delimiter after a line whose scan ends outside
quotes yields exactly one trailing empty field, (ii) every line yields at
least one field (the current field is always emitted, so unterminated quoting
is tolerated, never an error), (iii) the line `a,"b""c"` tokenizes under the
comma delimiter to exactly the two fields `a` and `b"c`, and (iv) a line with
an unterminated opening quote tokenizes to its accumulated content. -/
theorem c7_tokenizer_fields (delim : Char) (line : String)
    (hd : delim ≠ quoteChar) (hq : quoteState line.data false = false) :
    parseCsvLine delim (line.push delim) = parseCsvLine delim line ++ [""]
    ∧ (∀ l : String, 1 ≤ (parseCsvLine delim l).length)
    ∧ parseCsvLine ','
        (String.mk ['a', ',', quoteChar, 'b', quoteChar, quoteChar, 'c', quoteChar])
        = ["a", String.mk ['b', quoteChar, 'c']]
    ∧ parseCsvLine ',' (String.mk [quoteChar, 'a', 'b']) = [String.mk ['a', 'b']] := by
  refine ⟨?_, fun l => ?_, by decide, by decide⟩
  · have := parseLineAux_append_delim delim hd line.data [] "" false hq
    simpa [parseCsvLine] using this
  · simpa [parseCsvLine] using parseLineAux_length delim l.data [] "" false

/-- C7 witness: the trailing-delimiter property applied to the concrete line
`ab` with the comma delimiter. -/
theorem c7_tokenizer_fields_witness :
    parseCsvLine ',' (String.push "ab" ',') = parseCsvLine ',' "ab" ++ [""] :=
  (c7_tokenizer_fields ',' "ab" (by decide) (by decide)).1

/-- Stepping a row counter modulo the batch size. -/
theorem succ_mod_step (K n : ℕ) (hK : 0 < K) :
    (n + 1) % K = if n % K + 1 = K then 0 else n % K + 1 := by
  have hr : n % K < K := Nat.mod_lt _ hK
  have h1 : (n + 1) % K = (n % K + 1) % K := by
    conv_lhs => rw [← Nat.mod_add_div n K]
    rw [Nat.add_right_comm, Nat.add_mul_mod_self_left]
  by_cases hc : n % K + 1 = K
  · rw [h1, hc, Nat.mod_self, if_pos rfl]
  · rw [h1, Nat.mod_eq_of_lt (by omega), if_neg hc]

/-- Unfolding the chunk loop at the end of input. -/
theorem chunkedGo_nil (delim : Char) (ti : Bool) (K : ℕ) (header : List String)
    (chunk : List Row) (cnt : ℕ) :
    chunkedGo delim ti K header [] chunk cnt
      = if chunk.isEmpty then [] else [chunk] := by
  rw [chunkedGo.eq_def]

/-- Unfolding the chunk loop on a blank line. -/
theorem chunkedGo_blank (delim : Char) (ti : Bool) (K : ℕ) (header : List String)
    {line : String} (hb : line = "") (rest : List String) (chunk : List Row) (cnt : ℕ) :
    chunkedGo delim ti K header (line :: rest) chunk cnt
      = chunkedGo delim ti K header rest chunk cnt := by
  rw [chunkedGo.eq_def]; simp [hb]

/-- Unfolding the chunk loop on a data line that completes a batch. -/
theorem chunkedGo_emit (delim : Char) (ti : Bool) (K : ℕ) (header : List String)
    {line : String} (hb : line ≠ "") {cnt : ℕ} (hm : (cnt + 1) % K = 0)
    (rest : List String) (chunk : List Row) :
    chunkedGo delim ti K header (line :: rest) chunk cnt
      = (chunk ++ [rowOfLine delim ti header line])
          :: chunkedGo delim ti K header rest [] (cnt + 1) := by
  rw [chunkedGo.eq_def]; simp [hb, hm]

/-- Unfolding the chunk loop on a data line inside a batch. -/
theorem chunkedGo_keep (delim : Char) (ti : Bool) (K : ℕ) (header : List String)
    {line : String} (hb : line ≠ "") {cnt : ℕ} (hm : (cnt + 1) % K ≠ 0)
    (rest : List String) (chunk : List Row) :
    chunkedGo delim ti K header (line :: rest) chunk cnt
      = chunkedGo delim ti K header rest (chunk ++ [rowOfLine delim ti header line]) (cnt + 1) := by
  rw [chunkedGo.eq_def]; simp [hb, hm]

/-- Blank lines contribute nothing to the row sequence. -/
theorem chunkRowsOf_cons_blank (delim : Char) (ti : Bool) (header : List String)
    {line : String} (hb : line = "") (rest : List String) :
    chunkRowsOf delim ti header (line :: rest) = chunkRowsOf delim ti header rest := by
  simp [chunkRowsOf, hb]

/-- A data line contributes its parsed row. -/
theorem chunkRowsOf_cons_data (delim : Char) (ti : Bool) (header : List String)
    {line : String} (hb : line ≠ "") (rest : List String) :
    chunkRowsOf delim ti header (line :: rest)
      = rowOfLine delim ti header line :: chunkRowsOf delim ti header rest := by
  simp [chunkRowsOf, hb]

/-- The concatenation of the generator's batches is the pending chunk
followed by the rows of the remaining lines. -/
theorem chunkedGo_flatten (delim : Char) (ti : Bool) (K : ℕ) (header : List String)
    (hK : 0 < K) :
    ∀ (rest : List String) (chunk : List Row) (cnt : ℕ), chunk.length = cnt % K →
      (chunkedGo delim ti K header rest chunk cnt).flatten
        = chunk ++ chunkRowsOf delim ti header rest
  | [], chunk, cnt, _ => by
    rw [chunkedGo_nil]
    by_cases hc : chunk.isEmpty
    · rw [if_pos hc]
      simp_all [List.isEmpty_iff, chunkRowsOf]
    · rw [if_neg hc]
      simp [chunkRowsOf]
  | line :: rest, chunk, cnt, h => by
    by_cases hb : line = ""
    · rw [chunkedGo_blank delim ti K header hb, chunkRowsOf_cons_blank delim ti header hb]
      exact chunkedGo_flatten delim ti K header hK rest chunk cnt h
    · rw [chunkRowsOf_cons_data delim ti header hb]
      by_cases hm : (cnt + 1) % K = 0
      · rw [chunkedGo_emit delim ti K header hb hm, List.flatten_cons,
          chunkedGo_flatten delim ti K header hK rest [] (cnt + 1) (by simp [hm])]
        simp
      · have hstep : (cnt + 1) % K = cnt % K + 1 := by
          have hs := succ_mod_step K cnt hK
          by_cases hx : cnt % K + 1 = K
          · rw [if_pos hx] at hs; exact absurd hs hm
          · rwa [if_neg hx] at hs
        rw [chunkedGo_keep delim ti K header hb hm,
          chunkedGo_flatten delim ti K header hK rest
            (chunk ++ [rowOfLine delim ti header line]) (cnt + 1)
            (by simp [hstep, h])]
        simp

/-- The generator yields one batch per started group of `K` rows. -/
theorem chunkedGo_length (delim : Char) (ti : Bool) (K : ℕ) (header : List String)
    (hK : 0 < K) :
    ∀ (rest : List String) (chunk : List Row) (cnt : ℕ), chunk.length = cnt % K →
      (chunkedGo delim ti K header rest chunk cnt).length
        = (chunk.length + (chunkRowsOf delim ti header rest).length + K - 1) / K
  | [], chunk, cnt, h => by
    rw [chunkedGo_nil]
    have hlt : chunk.length < K := by
      rw [h]; exact Nat.mod_lt _ hK
    have hz : chunkRowsOf delim ti header [] = [] := by simp [chunkRowsOf]
    by_cases hc : chunk.isEmpty
    · rw [if_pos hc]
      rw [List.isEmpty_iff] at hc
      subst hc
      rw [hz]
      simp only [List.length_nil, Nat.zero_add, Nat.add_zero]
      exact (Nat.div_eq_of_lt (by omega)).symm
    · rw [if_neg hc]
      have h1 : 1 ≤ chunk.length := by
        have : chunk ≠ [] := by simpa [List.isEmpty_iff] using hc
        exact List.length_pos.mpr this
      rw [hz]
      simp only [List.length_nil, Nat.add_zero, List.length_cons, Nat.zero_add]
      rw [eq_comm]
      apply Nat.div_eq_of_lt_le <;> omega
  | line :: rest, chunk, cnt, h => by
    by_cases hb : line = ""
    · rw [chunkedGo_blank delim ti K header hb, chunkRowsOf_cons_blank delim ti header hb]
      exact chunkedGo_length delim ti K header hK rest chunk cnt h
    · rw [chunkRowsOf_cons_data delim ti header hb]
      by_cases hm : (cnt + 1) % K = 0
      · have hc : chunk.length = K - 1 := by
          have := succ_mod_step K cnt hK
          rw [hm] at this
          by_cases hx : cnt % K + 1 = K
          · omega
          · rw [if_neg hx] at this; omega
        rw [chunkedGo_emit delim ti K header hb hm, List.length_cons,
          chunkedGo_length delim ti K header hK rest [] (cnt + 1) (by simp [hm])]
        simp only [List.length_nil, List.length_cons, Nat.zero_add]
        have hrw : chunk.length + ((chunkRowsOf delim ti header rest).length + 1) + K - 1
            = (chunkRowsOf delim ti header rest).length + K - 1 + K := by omega
        rw [hrw, Nat.add_div_right _ hK]
      · have hstep : (cnt + 1) % K = cnt % K + 1 := by
          have := succ_mod_step K cnt hK
          by_cases hx : cnt % K + 1 = K
          · rw [if_pos hx] at this; omega
          · rwa [if_neg hx] at this
        rw [chunkedGo_keep delim ti K header hb hm,
          chunkedGo_length delim ti K header hK rest
            (chunk ++ [rowOfLine delim ti header line]) (cnt + 1)
            (by simp [hstep, h])]
        simp only [List.length_append, List.length_cons, List.length_nil]
        congr 1
        omega

/-- Every batch except possibly the last has length exactly `K`. -/
theorem chunkedGo_sizes (delim : Char) (ti : Bool) (K : ℕ) (header : List String)
    (hK : 0 < K) :
    ∀ (rest : List String) (chunk : List Row) (cnt : ℕ), chunk.length = cnt % K →
      ∀ i, i + 1 < (chunkedGo delim ti K header rest chunk cnt).length →
        ((chunkedGo delim ti K header rest chunk cnt).getD i []).length = K
  | [], chunk, cnt, _ => by
    rw [chunkedGo_nil]
    intro i hi
    by_cases hc : chunk.isEmpty <;> simp [hc] at hi
  | line :: rest, chunk, cnt, h => by
    by_cases hb : line = ""
    · rw [chunkedGo_blank delim ti K header hb]
      exact chunkedGo_sizes delim ti K header hK rest chunk cnt h
    · by_cases hm : (cnt + 1) % K = 0
      · have hc : chunk.length = K - 1 := by
          have := succ_mod_step K cnt hK
          rw [hm] at this
          by_cases hx : cnt % K + 1 = K
          · omega
          · rw [if_neg hx] at this; omega
        rw [chunkedGo_emit delim ti K header hb hm]
        intro i hi
        cases i with
        | zero => simp; omega
        | succ j =>
          simp only [List.getD_cons_succ]
          apply chunkedGo_sizes delim ti K header hK rest [] (cnt + 1) (by simp [hm])
          simpa using hi
      · have hstep : (cnt + 1) % K = cnt % K + 1 := by
          have := succ_mod_step K cnt hK
          by_cases hx : cnt % K + 1 = K
          · rw [if_pos hx] at this; omega
          · rwa [if_neg hx] at this
        rw [chunkedGo_keep delim ti K header hb hm]
        exact chunkedGo_sizes delim ti K header hK rest
          (chunk ++ [rowOfLine delim ti header line]) (cnt + 1) (by simp [hstep, h])

/-- The full-ingestion row sequence is the per-line row sequence of the data
lines. -/
theorem fullIngestRows_eq_chunkRowsOf (delim : Char) (ti : Bool) :
    ∀ lines : List String,
      fullIngestRows delim ti lines
        = chunkRowsOf delim ti (parseCsvLine delim (lines.headD "")) lines.tail
  | [] => by simp [fullIngestRows, readCsvFile, chunkRowsOf]
  | l0 :: rest => by
    simp [fullIngestRows, readCsvFile, chunkRowsOf, rowOfLine, List.map_map]

/-- C4. Chunked ingestion with a positive batch size `K` over a source with
`N` data rows yields batches whose concatenation equals the full-ingestion
row sequence (same blank-line skipping, width adjustment, and per-field
inference), whose count is exactly the ceiling of `N / K`, and all of which,
except possibly the last, have size exactly `K`. -/
theorem c4_chunked_equals_full (delim : Char) (ti : Bool) (lines : List String)
    (K : ℕ) (hK : 0 < K) :
    (parseChunked delim ti lines K).flatten = fullIngestRows delim ti lines
    ∧ (parseChunked delim ti lines K).length
        = ((fullIngestRows delim ti lines).length + K - 1) / K
    ∧ ∀ i, i + 1 < (parseChunked delim ti lines K).length →
        ((parseChunked delim ti lines K).getD i []).length = K := by
  refine ⟨?_, ?_, ?_⟩
  · rw [fullIngestRows_eq_chunkRowsOf]
    simpa [parseChunked] using
      chunkedGo_flatten delim ti K (parseCsvLine delim (lines.headD "")) hK
        lines.tail [] 0 (by simp)
  · rw [fullIngestRows_eq_chunkRowsOf]
    simpa [parseChunked] using
      chunkedGo_length delim ti K (parseCsvLine delim (lines.headD "")) hK
        lines.tail [] 0 (by simp)
  · exact chunkedGo_sizes delim ti K (parseCsvLine delim (lines.headD "")) hK
      lines.tail [] 0 (by simp)

/-- C4 witness: the chunked/full agreement evaluated on a concrete
four-line source with batch size 2. -/
theorem c4_chunked_equals_full_witness :
    (parseChunked ',' true ["h", "1", "2", "3"] 2).flatten
      = fullIngestRows ',' true ["h", "1", "2", "3"]
    ∧ (parseChunked ',' true ["h", "1", "2", "3"] 2).length
        = ((fullIngestRows ',' true ["h", "1", "2", "3"]).length + 2 - 1) / 2 :=
  ⟨(c4_chunked_equals_full ',' true ["h", "1", "2", "3"] 2 (by decide)).1,
   (c4_chunked_equals_full ',' true ["h", "1", "2", "3"] 2 (by decide)).2.1⟩

/-- Unfolding dict lookup over a leading entry. -/
theorem dictLookup_cons (k0 : String) (v0 : Value) (t : Row) (c : String) :
    dictLookup ((k0, v0) :: t) c = if k0 = c then some v0 else dictLookup t c := by
  by_cases h : k0 = c <;> simp [dictLookup, List.find?_cons, h]

/-- A successful dict lookup means the key is present. -/
theorem dictLookup_some_mem : ∀ (t : Row) (c : String) (v : Value),
    dictLookup t c = some v → c ∈ rowKeys t
  | [], c, v, h => by simp [dictLookup] at h
  | (k0, v0) :: t, c, v, h => by
    rw [dictLookup_cons] at h
    by_cases hk : k0 = c
    · simp [rowKeys, hk]
    · rw [if_neg hk] at h
      simpa [rowKeys] using Or.inr (dictLookup_some_mem t c v h)

/-- Dict assignment: the assigned key reads back the new value, every other
key is untouched. -/
theorem dictLookup_dictInsert : ∀ (rw : Row) (k : String) (v : Value) (c : String),
    dictLookup (dictInsert rw k v) c = if c = k then some v else dictLookup rw c
  | [], k, v, c => by
    rw [show dictInsert ([] : Row) k v = [(k, v)] from rfl, dictLookup_cons]
    by_cases h : c = k
    · rw [if_pos h.symm, if_pos h]
    · rw [if_neg (fun hh => h hh.symm), if_neg h]
  | (k0, v0) :: t, k, v, c => by
    by_cases h0 : k0 = k
    · subst h0
      rw [show dictInsert ((k0, v0) :: t) k0 v = (k0, v) :: t by simp [dictInsert],
        dictLookup_cons, dictLookup_cons]
      by_cases hc : c = k0
      · rw [if_pos hc.symm, if_pos hc]
      · rw [if_neg (fun hh => hc hh.symm), if_neg hc,
          if_neg (fun hh => hc hh.symm)]
    · have hb : (k0 == k) = false := by simp [h0]
      rw [show dictInsert ((k0, v0) :: t) k v = (k0, v0) :: dictInsert t k v by
          simp [dictInsert, hb],
        dictLookup_cons, dictLookup_dictInsert t k v c, dictLookup_cons]
      by_cases hk0c : k0 = c
      · have hck : ¬ c = k := fun hh => h0 (hk0c.trans hh)
        rw [if_pos hk0c, if_neg hck, if_pos hk0c]
      · rw [if_neg hk0c, if_neg hk0c]

/-- Dict update semantics: for a duplicate-free right dict, its entries win
on collisions and the base dict shows through elsewhere. -/
theorem dictLookup_dictUpdate : ∀ (m rw : Row) (c : String), (rowKeys m).Nodup →
    dictLookup (dictUpdate rw m) c
      = match dictLookup m c with
        | some v => some v
        | none => dictLookup rw c
  | [], rw, c, _ => by simp [dictUpdate, dictLookup]
  | (k0, v0) :: t, rw, c, hnd => by
    have hnd' : (k0 :: rowKeys t).Nodup := by simpa [rowKeys] using hnd
    have hnd0 : k0 ∉ rowKeys t := (List.nodup_cons.mp hnd').1
    have hndt : (rowKeys t).Nodup := (List.nodup_cons.mp hnd').2
    have hu : dictUpdate rw ((k0, v0) :: t) = dictUpdate (dictInsert rw k0 v0) t := rfl
    rw [hu, dictLookup_dictUpdate t (dictInsert rw k0 v0) c hndt, dictLookup_cons]
    rcases ht : dictLookup t c with _ | v
    · rw [dictLookup_dictInsert]
      by_cases hc : k0 = c
      · simp [hc]
      · have : ¬ c = k0 := fun hh => hc hh.symm
        simp [hc, this]
    · have hmem : c ∈ rowKeys t := dictLookup_some_mem t c v ht
      have : ¬ k0 = c := fun hh => hnd0 (hh ▸ hmem)
      simp [this]

/-- Unfolding the right-index lookup over a leading entry. -/
theorem idxFind_cons (k0 : Value) (rs : List Row) (t : List (Value × List Row))
    (k : Value) :
    idxFind ((k0, rs) :: t) k = if pyKey k0 = pyKey k then some rs else idxFind t k := by
  by_cases h : pyKey k0 = pyKey k <;> simp [idxFind, List.find?_cons, pyEqB, h]

/-- `setdefault(key, []).append(row)` seen through the lookup: the affected
equivalence class gains `row` at its end, every other class is untouched. -/
theorem idxFind_setdefaultAppend : ∀ (idx : List (Value × List Row)) (k : Value)
    (row : Row) (q : Value),
    idxFind (setdefaultAppend idx k row) q
      = if pyKey k = pyKey q then some ((idxFind idx q).getD [] ++ [row])
        else idxFind idx q
  | [], k, row, q => by
    rw [show setdefaultAppend [] k row = [(k, [row])] from rfl, idxFind_cons]
    by_cases h : pyKey k = pyKey q
    · rw [if_pos h, if_pos h]
      simp [idxFind]
    · rw [if_neg h, if_neg h]
  | (k0, rs) :: t, k, row, q => by
    by_cases h0 : pyKey k0 = pyKey k
    · have hb : pyEqB k0 k = true := by simp [pyEqB, h0]
      simp only [setdefaultAppend, hb, if_pos]
      rw [idxFind_cons, idxFind_cons]
      by_cases hq : pyKey k = pyKey q
      · rw [if_pos (h0.trans hq), if_pos (h0.trans hq), if_pos hq]
        simp
      · have : ¬ pyKey k0 = pyKey q := fun hh => hq (h0.symm.trans hh)
        rw [if_neg this, if_neg this, if_neg hq]
    · have hb : pyEqB k0 k = false := by simp [pyEqB, h0]
      simp only [setdefaultAppend, hb, Bool.false_eq_true, if_false]
      rw [idxFind_cons, idxFind_setdefaultAppend t k row q, idxFind_cons]
      by_cases hq0 : pyKey k0 = pyKey q
      · have : ¬ pyKey k = pyKey q := fun hh => h0 (hq0.trans hh.symm)
        rw [if_pos hq0, if_neg this, if_pos hq0]
      · rw [if_neg hq0, if_neg hq0]

/-- The right-side rows a key matches in the index are exactly the rows whose
right-key value equals it under Python `==`, in their original order. -/
theorem idxFind_buildIndex_aux (right_on : String) :
    ∀ (other : List Row) (idx : List (Value × List Row)) (k : Value),
      (idxFind (other.foldl
          (fun idx row =>
            match dictLookup row right_on with
            | none => idx
            | some kv => setdefaultAppend idx kv row)
          idx) k).getD []
        = (idxFind idx k).getD []
            ++ other.filter
                (fun m =>
                  match dictLookup m right_on with
                  | some k2 => pyEqB k2 k
                  | none => false)
  | [], idx, k => by simp
  | m :: rest, idx, k => by
    rw [List.foldl_cons, List.filter_cons]
    rcases hm : dictLookup m right_on with _ | kv
    · simp only [hm]
      rw [idxFind_buildIndex_aux right_on rest idx k]
      simp
    · simp only [hm]
      rw [idxFind_buildIndex_aux right_on rest (setdefaultAppend idx kv m) k,
        idxFind_setdefaultAppend]
      by_cases hq : pyKey kv = pyKey k
      · have : pyEqB kv k = true := by simp [pyEqB, hq]
        simp [this, hq]
      · have : pyEqB kv k = false := by simp [pyEqB, hq]
        simp [this, hq]

/-- The join loop accumulates by appending. -/
theorem joinData_foldl_eq : ∀ (data : List Row) (acc : List Row)
    (idx : List (Value × List Row)) (left_on : String),
    data.foldl
      (fun acc row =>
        match dictLookup row left_on with
        | none => acc
        | some k =>
          match idxFind idx k with
          | none => acc
          | some ms => acc ++ ms.map (fun m => dictUpdate row m)) acc
      = acc ++ data.flatMap
          (fun row =>
            match dictLookup row left_on with
            | none => []
            | some k => ((idxFind idx k).getD []).map (fun m => dictUpdate row m))
  | [], acc, idx, left_on => by simp
  | row :: rest, acc, idx, left_on => by
    rw [List.foldl_cons, List.flatMap_cons,
      joinData_foldl_eq rest _ idx left_on]
    rcases hl : dictLookup row left_on with _ | k
    · simp
    · rcases hf : idxFind idx k with _ | ms
      · simp [hf]
      · simp [hf, List.append_assoc]

/-- C5. `join` is strictly inner: it emits, in left-row order with
right-match order within ties, exactly one merged row per pair of a left row
carrying the left key and a right row carrying the right key with an equal
key value; the merged row is the left row overlaid by the right row with
right values winning on any column collision; rows missing their join key on
either side are never emitted, and an empty side yields an empty result (the
characterization below entails all of these, and the concrete `{1,2,3}`
against `{2,4}` example yields exactly the one merged row for key 2). -/
theorem c5_join_strictly_inner (selfData other : List Row) (left_on right_on : String) :
    (joinData selfData other left_on right_on
      = selfData.flatMap
          (fun row =>
            match dictLookup row left_on with
            | none => []
            | some k =>
              (other.filter
                  (fun m =>
                    match dictLookup m right_on with
                    | some k2 => pyEqB k2 k
                    | none => false)).map (fun m => dictUpdate row m)))
    ∧ (∀ (row m : Row) (c : String), (rowKeys m).Nodup →
        dictLookup (dictUpdate row m) c
          = match dictLookup m c with
            | some v => some v
            | none => dictLookup row c)
    ∧ joinData [[("k", .int 1)], [("k", .int 2)], [("k", .int 3)]]
        [[("k", .int 2), ("x", .int 9)], [("k", .int 4)]] "k" "k"
        = [[("k", .int 2), ("x", .int 9)]] := by
  refine ⟨?_, fun row m c hnd => dictLookup_dictUpdate m row c hnd, by decide⟩
  unfold joinData
  by_cases he : other.isEmpty || selfData.isEmpty
  · rw [if_pos he]
    rcases Bool.or_eq_true_iff.mp he with h | h
    · rw [List.isEmpty_iff] at h
      subst h
      rw [eq_comm, List.flatMap_eq_nil_iff]
      intro row _
      rcases dictLookup row left_on <;> simp
    · rw [List.isEmpty_iff] at h
      subst h
      simp
  · rw [if_neg he]
    rw [joinData_foldl_eq selfData [] (buildIndex other right_on) left_on]
    rw [List.nil_append]
    have hidx : ∀ k, (idxFind (buildIndex other right_on) k).getD []
        = other.filter
            (fun m =>
              match dictLookup m right_on with
              | some k2 => pyEqB k2 k
              | none => false) := by
      intro k
      have h := idxFind_buildIndex_aux right_on other [] k
      simpa [idxFind, buildIndex] using h
    have hfun :
        (fun row =>
            match dictLookup row left_on with
            | none => ([] : List Row)
            | some k =>
              ((idxFind (buildIndex other right_on) k).getD []).map
                (fun m => dictUpdate row m))
        = (fun row =>
            match dictLookup row left_on with
            | none => ([] : List Row)
            | some k =>
              (other.filter
                  (fun m =>
                    match dictLookup m right_on with
                    | some k2 => pyEqB k2 k
                    | none => false)).map (fun m => dictUpdate row m)) := by
      funext row
      cases hrow : dictLookup row left_on with
      | none => rfl
      | some k =>
        dsimp only
        rw [hidx k]
    rw [hfun]

/-- C5 witness: the right-wins overlay property applied to a concrete pair
of rows sharing the column `a`. -/
theorem c5_join_strictly_inner_witness :
    dictLookup (dictUpdate [("a", Value.int 1)] [("a", Value.int 2)]) "a"
      = some (Value.int 2) := by
  have h := (c5_join_strictly_inner [] [] "" "").2.1
    [("a", Value.int 1)] [("a", Value.int 2)] "a" (by decide)
  rw [h]
  decide

/-- Splitting a duplicate-free key list at its head. -/
theorem fstNodup_cons {β : Type} (k : String) (v : β) (t : List (String × β))
    (h : (((k, v) :: t).map (fun p => p.1)).Nodup) :
    k ∉ t.map (fun p => p.1) ∧ (t.map (fun p => p.1)).Nodup := by
  simp only [List.map_cons] at h
  exact List.nodup_cons.mp h

/-- Promotion updates do not change the tracked key list. -/
theorem updatePromote_keys : ∀ (ct : List (String × Option Ty)) (col : String) (t : Ty),
    (updatePromote ct col t).map (fun p => p.1) = ct.map (fun p => p.1)
  | [], _, _ => rfl
  | (c, o) :: rest, col, t => by
    by_cases hc : c = col
    · simp [updatePromote, hc]
    · have hb : (c == col) = false := by simp [hc]
      simp [updatePromote, hb, updatePromote_keys rest col t]

/-- With duplicate-free tracked keys, one promotion write is a pointwise map
over the tracked list. -/
theorem updatePromote_eq_map : ∀ (ct : List (String × Option Ty)) (col : String) (t : Ty),
    (ct.map (fun p => p.1)).Nodup →
    updatePromote ct col t
      = ct.map (fun p => if p.1 = col then (p.1, some (promoteStep p.2 t)) else p)
  | [], _, _, _ => rfl
  | (c, o) :: rest, col, t, hnd => by
    have hnd' := fstNodup_cons c o rest hnd
    by_cases hc : c = col
    · subst hc
      have hrest : ∀ p ∈ rest,
          (if p.1 = c then ((p.1, some (promoteStep p.2 t)) : String × Option Ty) else p)
            = p := by
        intro p hp
        have hin : p.1 ∈ rest.map (fun p => p.1) := List.mem_map_of_mem _ hp
        apply if_neg
        intro hh
        apply hnd'.1
        rw [← hh]
        exact hin
      have hmap :
          rest.map (fun p =>
              if p.1 = c then ((p.1, some (promoteStep p.2 t)) : String × Option Ty) else p)
            = rest := by
        rw [List.map_congr_left hrest]
        simp
      rw [show updatePromote ((c, o) :: rest) c t = (c, some (promoteStep o t)) :: rest by
          simp [updatePromote]]
      rw [List.map_cons, if_pos rfl, hmap]
    · have hb : (c == col) = false := by simp [hc]
      rw [show updatePromote ((c, o) :: rest) col t = (c, o) :: updatePromote rest col t by
          simp [updatePromote, hb]]
      rw [updatePromote_eq_map rest col t hnd'.2, List.map_cons, if_neg hc]

/-- An absent key reads back nothing. -/
theorem dictLookup_eq_none (t : Row) (c : String) (h : c ∉ rowKeys t) :
    dictLookup t c = none := by
  have hfind : t.find? (fun p => p.1 == c) = none := by
    rw [List.find?_eq_none]
    intro x hx
    simp only [beq_iff_eq]
    intro hxc
    refine h ?_
    rw [← hxc]
    exact List.mem_map_of_mem _ hx
  simp [dictLookup, hfind]

/-- Folding one duplicate-free row through the tracked column types promotes
each tracked cell by the row's value at its column, where present. -/
theorem processRowTypes_eq_map : ∀ (r : Row) (ct : List (String × Option Ty)),
    (rowKeys r).Nodup → (ct.map (fun p => p.1)).Nodup →
    processRowTypes ct r
      = ct.map (fun p =>
          match dictLookup r p.1 with
          | some v => (p.1, some (promoteStep p.2 (typeTag v)))
          | none => p)
  | [], ct, _, _ => by
    rw [show processRowTypes ct [] = ct from rfl, eq_comm]
    have hpt : ∀ p ∈ ct,
        (match dictLookup ([] : Row) p.1 with
         | some v => ((p.1 : String), some (promoteStep p.2 (typeTag v)))
         | none => p) = p := fun p _ => rfl
    rw [List.map_congr_left hpt]
    simp
  | (c, v) :: rt, ct, hr, hct => by
    have hr' := fstNodup_cons c v rt (by simpa [rowKeys] using hr)
    have hct' : ((updatePromote ct c (typeTag v)).map (fun p => p.1)).Nodup := by
      rw [updatePromote_keys]; exact hct
    rw [show processRowTypes ct ((c, v) :: rt)
        = processRowTypes (updatePromote ct c (typeTag v)) rt from rfl]
    rw [processRowTypes_eq_map rt (updatePromote ct c (typeTag v)) hr'.2 hct']
    rw [updatePromote_eq_map ct c (typeTag v) hct, List.map_map]
    apply List.map_congr_left
    rintro ⟨p1, p2⟩ _
    by_cases hpc : p1 = c
    · subst hpc
      have hlook : dictLookup rt p1 = none := dictLookup_eq_none rt p1 hr'.1
      simp [hlook, dictLookup_cons]
    · have hcp : ¬ c = p1 := fun hh => hpc hh.symm
      simp only [Function.comp_apply, if_neg hpc, dictLookup_cons, if_neg hcp]

/-- Unfolding the cell promotion history over a leading row. -/
theorem cellFold_cons (r : Row) (rest : List Row) (c : String) (o : Option Ty) :
    cellFold (r :: rest) c o
      = cellFold rest c
          (match dictLookup r c with
           | some v => some (promoteStep o (typeTag v))
           | none => o) := rfl

/-- The nested promotion loop of `_infer_schema_all_rows` computes, per
tracked entry, exactly the cell promotion history of that column. -/
theorem foldl_processRowTypes_eq : ∀ (data : List Row) (ct : List (String × Option Ty)),
    (∀ r ∈ data, (rowKeys r).Nodup) → (ct.map (fun p => p.1)).Nodup →
    data.foldl processRowTypes ct = ct.map (fun p => (p.1, cellFold data p.1 p.2))
  | [], ct, _, _ => by
    rw [List.foldl_nil, eq_comm]
    have hpt : ∀ p ∈ ct, (((p.1 : String), cellFold [] p.1 p.2) : String × Option Ty) = p :=
      fun p _ => rfl
    rw [List.map_congr_left hpt]
    simp
  | r :: rest, ct, hrows, hct => by
    have hkeys' : ((ct.map (fun p =>
        match dictLookup r p.1 with
        | some v => (p.1, some (promoteStep p.2 (typeTag v)))
        | none => p)).map (fun p => p.1)).Nodup := by
      rw [List.map_map]
      have hpt : ∀ p ∈ ct, ((fun p => p.1) ∘ (fun p =>
          match dictLookup r p.1 with
          | some v => ((p.1 : String), some (promoteStep p.2 (typeTag v)))
          | none => p)) p = p.1 := by
        intro p _
        rcases hl : dictLookup r p.1 <;> simp [Function.comp, hl]
      rw [List.map_congr_left hpt]
      exact hct
    rw [List.foldl_cons,
      processRowTypes_eq_map r ct (hrows r (by simp)) hct,
      foldl_processRowTypes_eq rest _ (fun s hs => hrows s (by simp [hs])) hkeys',
      List.map_map]
    apply List.map_congr_left
    rintro ⟨p1, p2⟩ _
    rcases hl : dictLookup r p1 with _ | v <;>
      simp only [Function.comp_apply, hl, cellFold_cons]

/-- `_infer_schema_all_rows` on a nonempty dataset of duplicate-free rows:
one schema entry per first-row column, holding that column's promotion
history read off with the (never used) `string` default. -/
theorem inferSchemaAllRows_char (r0 : Row) (rest : List Row)
    (hrows : ∀ r ∈ r0 :: rest, (rowKeys r).Nodup) :
    inferSchemaAllRows (r0 :: rest)
      = (rowKeys r0).map
          (fun c => (c, (cellFold (r0 :: rest) c none).getD Ty.string)) := by
  have hkeys : ((r0.map (fun p => ((p.1 : String), (none : Option Ty)))).map
      (fun p => p.1)).Nodup := by
    rw [List.map_map]
    exact hrows r0 (by simp)
  rw [show inferSchemaAllRows (r0 :: rest)
      = ((r0 :: rest).foldl processRowTypes
          (r0.map (fun p => (p.1, none)))).map (fun p => (p.1, p.2.getD Ty.string))
      from rfl]
  rw [foldl_processRowTypes_eq (r0 :: rest) _ hrows hkeys, List.map_map, List.map_map,
    show rowKeys r0 = r0.map (fun p => p.1) from rfl, List.map_map]
  apply List.map_congr_left
  intro p _
  rfl

/-- Two promotion steps commute. -/
theorem promoteStep_swap : ∀ (o : Option Ty) (a b : Ty),
    some (promoteStep (some (promoteStep o a)) b)
      = some (promoteStep (some (promoteStep o b)) a) := by decide

/-- The cell promotion history is invariant under permuting the rows. -/
theorem cellFold_perm (c : String) {d1 d2 : List Row} (hp : d1.Perm d2) (o : Option Ty) :
    cellFold d1 c o = cellFold d2 c o := by
  unfold cellFold
  refine hp.foldl_eq' ?_ o
  intro x _ y _ z
  dsimp only
  rcases hx : dictLookup x c with _ | v <;> rcases hy : dictLookup y c with _ | w <;>
    simp only [hx, hy]
  exact promoteStep_swap z (typeTag v) (typeTag w)

/-- C8. Schema promotion is order-independent: permuting the rows of a
dataset (rows with duplicate-free, shared key lists, as ingestion always
produces) never changes the schema `_infer_schema_all_rows` computes. -/
theorem c8_schema_order_independent (data1 data2 : List Row)
    (hperm : data1.Perm data2)
    (hnod : ∀ r ∈ data1, (rowKeys r).Nodup)
    (huniv : ∀ r ∈ data1, ∀ s ∈ data1, rowKeys r = rowKeys s) :
    inferSchemaAllRows data1 = inferSchemaAllRows data2 := by
  cases data1 with
  | nil => rw [hperm.symm.eq_nil]
  | cons r1 rest1 =>
    cases data2 with
    | nil => exact (List.cons_ne_nil r1 rest1 hperm.eq_nil).elim
    | cons r2 rest2 =>
      have hnod2 : ∀ r ∈ r2 :: rest2, (rowKeys r).Nodup := fun r hr =>
        hnod r (hperm.mem_iff.mpr hr)
      have hk12 : rowKeys r2 = rowKeys r1 := by
        have h2 : r2 ∈ r1 :: rest1 := hperm.mem_iff.mpr (by simp)
        exact huniv r2 h2 r1 (by simp)
      rw [inferSchemaAllRows_char r1 rest1 hnod,
        inferSchemaAllRows_char r2 rest2 hnod2, hk12]
      apply List.map_congr_left
      intro c _
      rw [cellFold_perm c hperm]

/-- C8 witness: swapping the two rows of a concrete dataset leaves the
inferred schema unchanged. -/
theorem c8_schema_order_independent_witness :
    inferSchemaAllRows [[("a", Value.int 1)], [("a", Value.str "x")]]
      = inferSchemaAllRows [[("a", Value.str "x")], [("a", Value.int 1)]] :=
  c8_schema_order_independent
    [[("a", Value.int 1)], [("a", Value.str "x")]]
    [[("a", Value.str "x")], [("a", Value.int 1)]]
    (by decide) (by decide) (by decide)

/-- Character-list order: reflexivity. -/
theorem charListLe_refl : ∀ as : List Char, charListLe as as = true
  | [] => rfl
  | a :: as => by simp [charListLe, lt_irrefl, charListLe_refl as]

/-- Character-list order: totality. -/
theorem charListLe_total : ∀ as bs : List Char,
    charListLe as bs = true ∨ charListLe bs as = true
  | [], _ => Or.inl rfl
  | _ :: _, [] => Or.inr rfl
  | a :: as, b :: bs => by
    rcases lt_trichotomy a b with h | h | h
    · left; simp [charListLe, h]
    · subst h
      rcases charListLe_total as bs with ht | ht
      · left; simp [charListLe, lt_irrefl, ht]
      · right; simp [charListLe, lt_irrefl, ht]
    · right; simp [charListLe, h]

/-- Character-list order: transitivity. -/
theorem charListLe_trans : ∀ as bs cs : List Char,
    charListLe as bs = true → charListLe bs cs = true → charListLe as cs = true
  | [], _, _, _, _ => rfl
  | a :: as, [], _, h1, _ => by simp [charListLe] at h1
  | a :: as, b :: bs, [], _, h2 => by simp [charListLe] at h2
  | a :: as, b :: bs, c :: cs, h1, h2 => by
    rcases lt_trichotomy a b with hab | hab | hab
    · rcases lt_trichotomy b c with hbc | hbc | hbc
      · simp [charListLe, lt_trans hab hbc]
      · subst hbc; simp [charListLe, hab]
      · rw [show charListLe (b :: bs) (c :: cs)
            = (if b < c then true else if c < b then false else charListLe bs cs)
            from rfl] at h2
        rw [if_neg (lt_asymm hbc), if_pos hbc] at h2
        exact absurd h2 (by simp)
    · subst hab
      rw [show charListLe (a :: as) (a :: bs)
          = (if a < a then true else if a < a then false else charListLe as bs)
          from rfl, if_neg (lt_irrefl a), if_neg (lt_irrefl a)] at h1
      rcases lt_trichotomy a c with hac | hac | hac
      · simp [charListLe, hac]
      · subst hac
        rw [show charListLe (a :: bs) (a :: cs)
            = (if a < a then true else if a < a then false else charListLe bs cs)
            from rfl, if_neg (lt_irrefl a), if_neg (lt_irrefl a)] at h2
        simp [charListLe, lt_irrefl, charListLe_trans as bs cs h1 h2]
      · rw [show charListLe (a :: bs) (c :: cs)
            = (if a < c then true else if c < a then false else charListLe bs cs)
            from rfl, if_neg (lt_asymm hac), if_pos hac] at h2
        exact absurd h2 (by simp)
    · rw [show charListLe (a :: as) (b :: bs)
          = (if a < b then true else if b < a then false else charListLe as bs)
          from rfl, if_neg (lt_asymm hab), if_pos hab] at h1
      exact absurd h1 (by simp)

/-- Character-list order: antisymmetry. -/
theorem charListLe_antisymm : ∀ as bs : List Char,
    charListLe as bs = true → charListLe bs as = true → as = bs
  | [], [], _, _ => rfl
  | [], _ :: _, _, h2 => by simp [charListLe] at h2
  | _ :: _, [], h1, _ => by simp [charListLe] at h1
  | a :: as, b :: bs, h1, h2 => by
    rcases lt_trichotomy a b with hab | hab | hab
    · rw [show charListLe (b :: bs) (a :: as)
          = (if b < a then true else if a < b then false else charListLe bs as)
          from rfl, if_neg (lt_asymm hab), if_pos hab] at h2
      exact absurd h2 (by simp)
    · subst hab
      rw [show charListLe (a :: as) (a :: bs)
          = (if a < a then true else if a < a then false else charListLe as bs)
          from rfl, if_neg (lt_irrefl a), if_neg (lt_irrefl a)] at h1
      rw [show charListLe (a :: bs) (a :: as)
          = (if a < a then true else if a < a then false else charListLe bs as)
          from rfl, if_neg (lt_irrefl a), if_neg (lt_irrefl a)] at h2
      rw [charListLe_antisymm as bs h1 h2]
    · rw [show charListLe (a :: as) (b :: bs)
          = (if a < b then true else if b < a then false else charListLe as bs)
          from rfl, if_neg (lt_asymm hab), if_pos hab] at h1
      exact absurd h1 (by simp)

/-- Sort-key order as a proposition. -/
theorem lexLeB_iff (x y : ℕ × ℚ × String) :
    lexLeB x y = true ↔
      x.1 < y.1 ∨ (x.1 = y.1 ∧ (x.2.1 < y.2.1
        ∨ (x.2.1 = y.2.1 ∧ strLeB x.2.2 y.2.2 = true))) := by
  simp [lexLeB, Bool.or_eq_true, Bool.and_eq_true, decide_eq_true_eq, and_assoc]

/-- Sort-key order: reflexivity. -/
theorem lexLeB_refl (x : ℕ × ℚ × String) : lexLeB x x = true := by
  rw [lexLeB_iff]
  exact Or.inr ⟨rfl, Or.inr ⟨rfl, charListLe_refl _⟩⟩

/-- Sort-key order: totality. -/
theorem lexLeB_total (x y : ℕ × ℚ × String) :
    lexLeB x y = true ∨ lexLeB y x = true := by
  rw [lexLeB_iff, lexLeB_iff]
  rcases lt_trichotomy x.1 y.1 with h1 | h1 | h1
  · exact Or.inl (Or.inl h1)
  · rcases lt_trichotomy x.2.1 y.2.1 with h2 | h2 | h2
    · exact Or.inl (Or.inr ⟨h1, Or.inl h2⟩)
    · rcases charListLe_total x.2.2.data y.2.2.data with h3 | h3
      · exact Or.inl (Or.inr ⟨h1, Or.inr ⟨h2, h3⟩⟩)
      · exact Or.inr (Or.inr ⟨h1.symm, Or.inr ⟨h2.symm, h3⟩⟩)
    · exact Or.inr (Or.inr ⟨h1.symm, Or.inl h2⟩)
  · exact Or.inr (Or.inl h1)

/-- Sort-key order: transitivity. -/
theorem lexLeB_trans {x y z : ℕ × ℚ × String}
    (h1 : lexLeB x y = true) (h2 : lexLeB y z = true) : lexLeB x z = true := by
  rw [lexLeB_iff] at h1 h2 ⊢
  rcases h1 with h1 | ⟨e1, h1⟩
  · rcases h2 with h2 | ⟨e2, _⟩
    · exact Or.inl (lt_trans h1 h2)
    · exact Or.inl (e2 ▸ h1)
  · rcases h2 with h2 | ⟨e2, h2⟩
    · exact Or.inl (e1 ▸ h2)
    · refine Or.inr ⟨e1.trans e2, ?_⟩
      rcases h1 with h1 | ⟨f1, h1⟩
      · rcases h2 with h2 | ⟨f2, _⟩
        · exact Or.inl (lt_trans h1 h2)
        · exact Or.inl (f2 ▸ h1)
      · rcases h2 with h2 | ⟨f2, h2⟩
        · exact Or.inl (f1 ▸ h2)
        · exact Or.inr ⟨f1.trans f2, charListLe_trans _ _ _ h1 h2⟩

/-- Sort-key order: antisymmetry. -/
theorem lexLeB_antisymm {x y : ℕ × ℚ × String}
    (h1 : lexLeB x y = true) (h2 : lexLeB y x = true) : x = y := by
  rw [lexLeB_iff] at h1 h2
  rcases x with ⟨x1, x2, x3⟩
  rcases y with ⟨y1, y2, y3⟩
  dsimp only at h1 h2
  rcases h1 with h1 | ⟨e1, h1⟩
  · rcases h2 with h2 | ⟨e2, _⟩
    · exact absurd h2 (lt_asymm h1)
    · exact absurd h1 (by omega)
  · rcases h2 with h2 | ⟨e2, h2⟩
    · exact absurd h2 (by omega)
    · subst e1
      rcases h1 with h1 | ⟨f1, h1⟩
      · rcases h2 with h2 | ⟨f2, _⟩
        · exact absurd h2 (lt_asymm h1)
        · exact absurd h1 (by rw [f2]; exact lt_irrefl _)
      · rcases h2 with h2 | ⟨f2, h2⟩
        · exact absurd h2 (by rw [f1]; exact lt_irrefl _)
        · subst f1
          have : x3.data = y3.data := charListLe_antisymm _ _ h1 h2
          have h3 : x3 = y3 := String.ext this
          rw [h3]

/-- The ascending comparison unfolded. -/
theorem sortLe_false (col : String) (a b : Row) :
    sortLe false col a b
      = lexLeB (vkeyOf (rowSortVal col a)) (vkeyOf (rowSortVal col b)) := rfl

/-- The descending comparison unfolded: the reverse of the ascending one. -/
theorem sortLe_true (col : String) (a b : Row) :
    sortLe true col a b
      = lexLeB (vkeyOf (rowSortVal col b)) (vkeyOf (rowSortVal col a)) := rfl

/-- Row comparison: equal sort keys compare favourably in both directions. -/
theorem sortLe_of_vkey_eq (rev : Bool) (col : String) {a b : Row}
    (h : vkeyOf (rowSortVal col a) = vkeyOf (rowSortVal col b)) :
    sortLe rev col a b = true := by
  cases rev
  · rw [sortLe_false, h]; exact lexLeB_refl _
  · rw [sortLe_true, ← h]; exact lexLeB_refl _

/-- Row comparison: totality. -/
theorem sortLe_total (rev : Bool) (col : String) (a b : Row) :
    sortLe rev col a b = true ∨ sortLe rev col b a = true := by
  cases rev
  · rw [sortLe_false, sortLe_false]; exact lexLeB_total _ _
  · rw [sortLe_true, sortLe_true]; exact lexLeB_total _ _

/-- Row comparison: transitivity. -/
theorem sortLe_trans (rev : Bool) (col : String) {a b c : Row}
    (h1 : sortLe rev col a b = true) (h2 : sortLe rev col b c = true) :
    sortLe rev col a c = true := by
  cases rev
  · rw [sortLe_false] at h1 h2 ⊢
    exact lexLeB_trans h1 h2
  · rw [sortLe_true] at h1 h2 ⊢
    exact lexLeB_trans h2 h1

/-- C3. The sort primitive (modelled from the spec, its implementation being
absent from `src/`): on a column absent from the schema it fails with
`ColumnNotFound`; on a schema column it succeeds with a new sequence that is
sorted under the direction's key order (null carrying the minimal key, hence
first ascending and last descending) and stable (each sort-key equivalence
class appears exactly as in the input, in original relative order); and the
spec's example `[null, 3, null, 1]` ascending yields the two nulls in
original order, then 1, then 3. -/
theorem c3_sort_stable_null_minimum :
    (∀ (st : PState) (col : String) (rev : Bool),
        schemaHasCol st.schema col = false →
        sort_data st col rev = .error (.columnNotFound col))
    ∧ (∀ (st : PState) (col : String) (rev : Bool),
        schemaHasCol st.schema col = true →
        ∃ l, sort_data st col rev = .ok l
          ∧ l.Pairwise (fun a b => sortLe rev col a b = true)
          ∧ ∀ k : ℕ × ℚ × String,
              l.filter (fun r => decide (vkeyOf (rowSortVal col r) = k))
                = st.data.filter (fun r => decide (vkeyOf (rowSortVal col r) = k)))
    ∧ sort_data ⟨[[("v", .null), ("i", .int 0)], [("v", .int 3), ("i", .int 1)],
                  [("v", .null), ("i", .int 2)], [("v", .int 1), ("i", .int 3)]],
                 [("v", .string), ("i", .int)]⟩ "v" false
        = .ok [[("v", .null), ("i", .int 0)], [("v", .null), ("i", .int 2)],
               [("v", .int 1), ("i", .int 3)], [("v", .int 3), ("i", .int 1)]] := by
  refine ⟨?_, ?_, by decide⟩
  · intro st col rev hcol
    simp [sort_data, hcol]
  · intro st col rev hcol
    refine ⟨List.insertionSort (fun a b => sortLe rev col a b = true) st.data,
      by simp [sort_data, hcol], ?_, ?_⟩
    · haveI : IsTotal Row (fun a b => sortLe rev col a b = true) :=
        ⟨fun a b => sortLe_total rev col a b⟩
      haveI : IsTrans Row (fun a b => sortLe rev col a b = true) :=
        ⟨fun _ _ _ h1 h2 => sortLe_trans rev col h1 h2⟩
      exact List.sorted_insertionSort _ _
    · intro k
      set p : Row → Bool := fun r => decide (vkeyOf (rowSortVal col r) = k) with hp
      have hpair : (st.data.filter p).Pairwise (fun a b => sortLe rev col a b = true) := by
        apply List.pairwise_of_forall_mem_list
        intro a ha b hb
        have hak := (List.mem_filter.mp ha).2
        have hbk := (List.mem_filter.mp hb).2
        rw [hp] at hak hbk
        simp only [decide_eq_true_eq] at hak hbk
        exact sortLe_of_vkey_eq rev col (hak.trans hbk.symm)
      have hsub : List.Sublist (st.data.filter p)
          (List.insertionSort (fun a b => sortLe rev col a b = true) st.data) :=
        List.sublist_insertionSort hpair (List.filter_sublist st.data)
      have hsub2 : List.Sublist (st.data.filter p)
          ((List.insertionSort (fun a b => sortLe rev col a b = true) st.data).filter p) := by
        have h1 := hsub.filter p
        rwa [List.filter_filter, show (fun a => p a && p a) = p from by
          funext a; rw [Bool.and_self]] at h1
      have hlen : ((List.insertionSort (fun a b => sortLe rev col a b = true)
          st.data).filter p).length = (st.data.filter p).length :=
        ((List.perm_insertionSort _ st.data).filter p).length_eq
      exact (hsub2.eq_of_length hlen.symm).symm

/-- C3 witness: the absent-column case applied to a concrete state and
column. -/
theorem c3_sort_stable_null_minimum_witness :
    sort_data ⟨[], []⟩ "zz" false = .error (.columnNotFound "zz") :=
  c3_sort_stable_null_minimum.1 ⟨[], []⟩ "zz" false (by decide)

end SportsStats
